import Mathlib

/-!
Shallow embedding of `btplotting/live/datahandler.py` (class `LiveDataHandler`).

A pandas DataFrame row is modelled as a `Row` carrying its position value
(the 'index' column, which under `preserveidx=True` coincides with the
DataFrame row label) and an opaque payload.  The handler's mutable state is
the structure `DH`; each Python method becomes a pure state-transforming
function.  Calls into the external sink (bokeh `ColumnDataSource.stream`,
`patch`, `set_cds_columns_from_df`) are recorded as `SinkEv` events on an
event trace, and the bokeh document's next-tick callback queue is modelled
explicitly as a list of (handle, kind) pairs with a fresh-handle counter, so
that the cancel-and-reschedule logic of `_push_adds` / `_push_patches` is
observable.
-/

namespace BtPlotting

/-- One logical record: `idx` is the value of its 'index' column (the unique,
strictly comparable position); `val` stands for the remaining columns. -/
structure Row where
  idx : Int
  val : Int
deriving DecidableEq, Repr

/-- The kind of a scheduled next-tick callback: `_cb_push_adds` or
`_cb_push_patches`. -/
inductive Kind where
  | add
  | patch
deriving DecidableEq, Repr

/-- Calls made into the external sink, recorded in order. -/
inductive SinkEv where
  | setColumns (rows : List Row)
  | stream (rows : List Row) (cap : Nat)
  | patchOrStream (r : Row)
deriving DecidableEq, Repr

/-- State of a `LiveDataHandler` together with its bokeh document's next-tick
callback queue (`pending`, with `next` the fresh handle counter) and the trace
of sink calls (`events`).  `nfigs` is the number of figures below the
figurepage (each receives its own stream/patch call). -/
structure DH where
  lookback : Nat
  nfigs : Nat
  datastore : List Row
  lastIdx : Int
  patches : List Row
  cbAdd : Option Nat
  cbPatch : Option Nat
  pending : List (Nat × Kind)
  next : Nat
  newData : Bool
  events : List SinkEv
deriving DecidableEq, Repr

/-- `DataFrame.tail(n)`: the last `n` rows (all rows when `n` exceeds the
length). -/
def tailRows (n : Nat) (l : List Row) : List Row :=
  l.drop (l.length - n)

/-- `idx in datastore['index']`: membership of a position value in the store
(under `preserveidx` the row labels equal the 'index' column values). -/
def memIdx (store : List Row) (i : Int) : Bool :=
  store.any (fun r => r.idx == i)

/-- `_get_data_stream_length`: `min(self._lookback, self._datastore.shape[0])`. -/
def getDataStreamLength (s : DH) : Nat :=
  min s.lookback s.datastore.length

/-- `doc.remove_next_tick_callback(h)`: removes the scheduled callback with
handle `h`, raising `ValueError` (modelled as `Except.error`) when `h` is
`None` or is not currently scheduled. -/
def removeNextTick (pending : List (Nat × Kind)) (h : Option Nat) :
    Except Unit (List (Nat × Kind)) :=
  match h with
  | none => Except.error ()
  | some h =>
      if pending.any (fun p => p.1 == h) then
        Except.ok (pending.filter (fun p => p.1 != h))
      else
        Except.error ()

/-- `_push_adds`: try to cancel the previously scheduled add callback
(swallowing `ValueError`), then schedule `_cb_push_adds` for the next tick,
remembering its handle in `_cb_add`. -/
def pushAdds (s : DH) : DH :=
  let pend :=
    match removeNextTick s.pending s.cbAdd with
    | Except.ok p => p
    | Except.error _ => s.pending
  { s with
    pending := pend ++ [(s.next, Kind.add)]
    cbAdd := some s.next
    next := s.next + 1 }

/-- `_push_patches`: try to cancel the previously scheduled patch callback
(swallowing `ValueError`), then schedule `_cb_push_patches` for the next tick,
remembering its handle in `_cb_patch`. -/
def pushPatches (s : DH) : DH :=
  let pend :=
    match removeNextTick s.pending s.cbPatch with
    | Except.ok p => p
    | Except.error _ => s.pending
  { s with
    pending := pend ++ [(s.next, Kind.patch)]
    cbPatch := some s.next
    next := s.next + 1 }

/-- Position of the first row of the store whose 'index' column equals `i`:
`self._datastore.loc[self._datastore['index'] == idx].index[0]`. -/
def firstMatch (store : List Row) (i : Int) : Nat :=
  store.findIdx (fun r => r.idx == i)

/-- One iteration of the loop body of `_process`: classify the row as
UPDATE (its index is already present in the store) or ADD, then either
overwrite in place, enqueue the row on `_patches` and request a patch flush,
or append the row, trim the store to `_get_data_stream_length()` rows and
request an add flush. -/
def processRow (s : DH) (row : Row) : DH :=
  if 0 < s.datastore.length ∧ memIdx s.datastore row.idx = true then
    pushPatches
      { s with
        datastore := s.datastore.set (firstMatch s.datastore row.idx) row
        patches := s.patches ++ [row] }
  else
    let appended := s.datastore ++ [row]
    pushAdds
      { s with
        datastore := tailRows (min s.lookback appended.length) appended }

/-- `_process(rows)`: rows are applied one after another, in the order they
appear in the incoming frame. -/
def process (s : DH) (rows : List Row) : DH :=
  rows.foldl processRow s

/-- The rows of the store that have not been streamed yet:
`self._datastore[self._datastore['index'] > self._last_idx]`. -/
def payloadOf (s : DH) : List Row :=
  s.datastore.filter (fun r => s.lastIdx < r.idx)

/-- `df['index'].iloc[-1]`: the 'index' value of the last (positional) row,
`-1` when the frame is empty (the caller always checks non-emptiness first). -/
def lastRowIdx (l : List Row) : Int :=
  match l.getLast? with
  | none => -1
  | some r => r.idx

/-- The stream calls emitted by one add flush: one for the figurepage's
ColumnDataSource and one per figure, each carrying the same update frame and
the retention cap `_get_data_stream_length()`. -/
def streamEvents (upd : List Row) (cap : Nat) (nfigs : Nat) : List SinkEv :=
  List.replicate (1 + nfigs) (SinkEv.stream upd cap)

/-- `_cb_push_adds`: take the not-yet-streamed rows; return immediately if
there are none; otherwise advance `_last_idx` to the last of those rows'
'index' values and stream the update frame to the figurepage and to every
figure. -/
def cbPushAdds (s : DH) : DH :=
  let upd := payloadOf s
  if upd.length = 0 then s
  else
    let s1 := { s with lastIdx := lastRowIdx upd }
    { s1 with events := s1.events ++ streamEvents upd (getDataStreamLength s1) s.nfigs }

/-- `_cb_push_adds` when a sink stream call raises after `k` of the calls
completed: `_last_idx` has already been advanced (it is written before the
first sink call), but only the first `k` stream calls reached the sink. -/
def cbPushAddsUpTo (s : DH) (k : Nat) : DH :=
  let upd := payloadOf s
  if upd.length = 0 then s
  else
    let s1 := { s with lastIdx := lastRowIdx upd }
    { s1 with
      events := s1.events ++ (streamEvents upd (getDataStreamLength s1) s.nfigs).take k }

/-- `_cb_push_patches`: drain `_patches`; return immediately if it was empty;
otherwise deliver each drained row (the choice between an in-place patch and
a 1-row stream is made per row by the external figurepage/figure objects and
is abstracted as a single `patchOrStream` event). -/
def cbPushPatches (s : DH) : DH :=
  let ps := s.patches
  if ps.length = 0 then s
  else { s with patches := [], events := s.events ++ ps.map SinkEv.patchOrStream }

/-- Execution of one scheduled callback by the consumer loop. -/
def runCb (s : DH) (k : Kind) : DH :=
  match k with
  | Kind.add => cbPushAdds s
  | Kind.patch => cbPushPatches s

/-- One tick of the bokeh document's single-threaded loop: every pending
next-tick callback is executed exactly once, in schedule order, and the
queue is cleared.  Returns the new state together with the list of callback
kinds that were executed. -/
def runTick (s : DH) : DH × List Kind :=
  let kinds := s.pending.map Prod.snd
  (kinds.foldl runCb { s with pending := [] }, kinds)

/-- `set(df)`: install `df` as the new datastore, reset `_last_idx` to `-1`,
then request one add flush. -/
def set (s : DH) (df : List Row) : DH :=
  pushAdds { s with datastore := df, lastIdx := -1 }

/-- `_fill()`: install the initially generated data, set `_last_idx` to its
last row's 'index' value when non-empty, and establish the sink's column
schema via `set_cds_columns_from_df`. -/
def fill (s : DH) (df : List Row) : DH :=
  let s1 := { s with datastore := df }
  let s2 := if 0 < df.length then { s1 with lastIdx := lastRowIdx df } else s1
  { s2 with events := s2.events ++ [SinkEv.setColumns df] }

/-- `update()`: mark that new data is available for the worker. -/
def update (s : DH) : DH :=
  { s with newData := true }

/-- One wake-up of `_t_thread`'s loop body: when new data was signalled,
clear the signal, pull the rows newer than `_last_idx` from the data source
(`generate_data(start=self._last_idx)`, modelled by `fetch`) and run
`_process` on them. -/
def tThreadStep (fetch : Int → List Row) (s : DH) : DH :=
  if s.newData then process { s with newData := false } (fetch s.lastIdx) else s

/-- `get_last_idx()`: the 'index' value of the store's last row, `-1` when
the store is empty. -/
def getLastIdx (s : DH) : Int :=
  if 0 < s.datastore.length then lastRowIdx s.datastore else -1

/-- Number of pending next-tick callbacks of a given kind. -/
def countKind (s : DH) (k : Kind) : Nat :=
  (s.pending.filter (fun p => p.2 == k)).length

/-- An optional handle is below the fresh counter. -/
def optLt : Option Nat → Nat → Prop
  | none, _ => True
  | some h, n => h < n

instance instDecidableOptLt : (o : Option Nat) → (n : Nat) → Decidable (optLt o n)
  | none, _ => isTrue trivial
  | some h, n => Nat.decLt h n

/-- Well-formedness of the callback bookkeeping, an invariant of every
reachable handler state: all pending handles (and the remembered ones) are
below the fresh counter, and a pending callback is the add one exactly when
its handle is the one remembered in `_cb_add` (likewise for patch). -/
def wf (s : DH) : Prop :=
  (∀ p ∈ s.pending, p.1 < s.next) ∧
  optLt s.cbAdd s.next ∧
  optLt s.cbPatch s.next ∧
  (∀ p ∈ s.pending, (p.2 = Kind.add ↔ s.cbAdd = some p.1)) ∧
  (∀ p ∈ s.pending, (p.2 = Kind.patch ↔ s.cbPatch = some p.1))

/-- The store's 'index' column is strictly increasing in row order. -/
def ascIdx : List Row → Bool
  | [] => true
  | [_] => true
  | a :: b :: t => (decide (a.idx < b.idx)) && ascIdx (b :: t)

/-- A freshly constructed handler whose initial `generate_data` returned an
empty frame: empty store, `_last_idx = -1`, nothing scheduled. -/
def initState (lb nfigs : Nat) : DH :=
  { lookback := lb
    nfigs := nfigs
    datastore := []
    lastIdx := -1
    patches := []
    cbAdd := none
    cbPatch := none
    pending := []
    next := 0
    newData := false
    events := [] }

/-! ### Helper lemmas about `tailRows` -/

theorem tailRows_length (n : Nat) (l : List Row) :
    (tailRows n l).length = min n l.length := by
  simp [tailRows]
  omega

theorem tailRows_zero (l : List Row) : tailRows 0 l = [] := by
  simp [tailRows]

theorem tailRows_min (n : Nat) (l : List Row) :
    tailRows (min n l.length) l = tailRows n l := by
  unfold tailRows
  congr 1
  omega

theorem tailRows_succ_append (k : Nat) (l : List Row) (a : Row) :
    tailRows (k + 1) (l ++ [a]) = tailRows k l ++ [a] := by
  unfold tailRows
  have h1 : (l ++ [a]).length - (k + 1) = l.length - k := by simp
  rw [h1, List.drop_append_of_le_length (by omega)]

theorem tailRows_tailRows (k n : Nat) (l : List Row) :
    tailRows k (tailRows n l) = tailRows (min k n) l := by
  unfold tailRows
  rw [List.drop_drop, List.length_drop]
  congr 1
  omega

theorem tailRows_append_one (n : Nat) (l : List Row) (a : Row) :
    tailRows n (tailRows n l ++ [a]) = tailRows n (l ++ [a]) := by
  cases n with
  | zero => rw [tailRows_zero, tailRows_zero]
  | succ k =>
      rw [tailRows_succ_append, tailRows_succ_append, tailRows_tailRows]
      congr 2
      omega

theorem tailRows_sublist (n : Nat) (l : List Row) : List.Sublist (tailRows n l) l :=
  List.drop_sublist _ l

/-! ### Field-preservation lemmas -/

theorem pushAdds_datastore (s : DH) : (pushAdds s).datastore = s.datastore := rfl

theorem pushAdds_lookback (s : DH) : (pushAdds s).lookback = s.lookback := rfl

theorem pushAdds_lastIdx (s : DH) : (pushAdds s).lastIdx = s.lastIdx := rfl

theorem pushAdds_patches (s : DH) : (pushAdds s).patches = s.patches := rfl

theorem pushPatches_datastore (s : DH) : (pushPatches s).datastore = s.datastore := rfl

theorem pushPatches_lookback (s : DH) : (pushPatches s).lookback = s.lookback := rfl

theorem pushPatches_lastIdx (s : DH) : (pushPatches s).lastIdx = s.lastIdx := rfl

theorem pushPatches_patches (s : DH) : (pushPatches s).patches = s.patches := rfl

theorem processRow_lookback (s : DH) (r : Row) :
    (processRow s r).lookback = s.lookback := by
  unfold processRow
  split <;> rfl

theorem process_nil (s : DH) : process s [] = s := rfl

theorem process_cons (s : DH) (r : Row) (rs : List Row) :
    process s (r :: rs) = process (processRow s r) rs := rfl

theorem memIdx_eq_true_iff (store : List Row) (i : Int) :
    memIdx store i = true ↔ ∃ q ∈ store, q.idx = i := by
  simp [memIdx]

theorem processRow_fresh (s : DH) (r : Row)
    (h : ¬(0 < s.datastore.length ∧ memIdx s.datastore r.idx = true)) :
    processRow s r =
      pushAdds
        { s with
          datastore :=
            tailRows (min s.lookback (s.datastore ++ [r]).length) (s.datastore ++ [r]) } := by
  rw [processRow, if_neg h]

/-- The append path of `_process`, run on rows with pairwise distinct fresh
indices, keeps exactly the last `lookback` of the rows seen so far. -/
theorem process_fresh (lb : Nat) :
    ∀ (rs done : List Row) (s : DH),
      s.lookback = lb →
      s.datastore = tailRows lb done →
      ((done ++ rs).map Row.idx).Nodup →
      (process s rs).datastore = tailRows lb (done ++ rs) := by
  intro rs
  induction rs with
  | nil =>
      intro done s _ hds _
      simpa [process_nil] using hds
  | cons r rs ih =>
      intro done s hlb hds hnd
      have hnotmem : r.idx ∉ done.map Row.idx := by
        intro hmem
        rw [List.map_append, List.nodup_append] at hnd
        exact hnd.2.2 hmem (by simp)
      have hfresh : ¬(0 < s.datastore.length ∧ memIdx s.datastore r.idx = true) := by
        rintro ⟨-, hm⟩
        rcases (memIdx_eq_true_iff _ _).mp hm with ⟨q, hq, hqi⟩
        have hqd : q ∈ done := (tailRows_sublist lb done).mem (hds ▸ hq)
        exact hnotmem (List.mem_map.mpr ⟨q, hqd, hqi⟩)
      have hnew : (processRow s r).datastore = tailRows lb (done ++ [r]) := by
        rw [processRow_fresh s r hfresh, pushAdds_datastore, hlb, hds,
          tailRows_min, tailRows_append_one]
      rw [process_cons]
      have hres := ih (done ++ [r]) (processRow s r)
        (by rw [processRow_lookback, hlb]) hnew
        (by rwa [List.append_assoc, List.singleton_append])
      rwa [List.append_assoc, List.singleton_append] at hres

/-- C1: after any append the store holds at most `lookback` rows, and for
appends arriving with fresh indices the retained rows are exactly the last
`lookback` rows appended (FIFO); when the appends additionally arrive in
ascending index order, those are exactly the `lookback` highest-index rows
appended so far. -/
theorem claim_C1 (lb nfigs : Nat) (rs : List Row)
    (hnd : (rs.map Row.idx).Nodup) :
    (process (initState lb nfigs) rs).datastore = tailRows lb rs ∧
    (∀ k : Nat, (process (initState lb nfigs) (rs.take k)).datastore.length ≤ lb) ∧
    (List.Pairwise (fun a b : Row => a.idx < b.idx) rs →
      ∀ r ∈ tailRows lb rs, ∀ d ∈ rs.take (rs.length - lb), d.idx < r.idx) := by
  refine ⟨?_, ?_, ?_⟩
  · have h := process_fresh lb rs [] (initState lb nfigs) rfl (by simp [initState, tailRows])
      (by simpa using hnd)
    simpa using h
  · intro k
    have hnd2 : ((rs.take k).map Row.idx).Nodup := by
      exact hnd.sublist (List.Sublist.map Row.idx (List.take_sublist k rs))
    have h := process_fresh lb (rs.take k) [] (initState lb nfigs) rfl
      (by simp [initState, tailRows]) (by simpa using hnd2)
    simp only [List.nil_append] at h
    rw [h, tailRows_length]
    exact Nat.min_le_left _ _
  · intro hpw r hr d hd
    have hsplit : List.Pairwise (fun a b : Row => a.idx < b.idx)
        (rs.take (rs.length - lb) ++ rs.drop (rs.length - lb)) := by
      rwa [List.take_append_drop]
    exact (List.pairwise_append.mp hsplit).2.2 d hd r hr

/-- C1 counterexample: with `lookback = 1`, appending index 5 and then the
(out-of-order, e.g. re-appended after eviction) index 2 retains only the row
with index 2 — not the highest-index row appended so far (index 5): eviction
is FIFO by append position, not by index. -/
theorem claim_C1_counterexample :
    (process (initState 1 0) [⟨5, 0⟩, ⟨2, 0⟩]).datastore = [⟨2, 0⟩] ∧
    (⟨5, 0⟩ : Row) ∈ [(⟨5, 0⟩ : Row), ⟨2, 0⟩] ∧
    (∀ r ∈ (process (initState 1 0) [⟨5, 0⟩, ⟨2, 0⟩]).datastore, r.idx < (5 : Int)) := by
  decide

/-- C1 witness: the amended claim evaluated at `lookback = 2` and the append
sequence with indices 1, 2, 3. -/
theorem claim_C1_witness :
    (([⟨1, 0⟩, ⟨2, 0⟩, ⟨3, 0⟩] : List Row).map Row.idx).Nodup ∧
    ((process (initState 2 0) [⟨1, 0⟩, ⟨2, 0⟩, ⟨3, 0⟩]).datastore =
        tailRows 2 [⟨1, 0⟩, ⟨2, 0⟩, ⟨3, 0⟩] ∧
      (∀ k : Nat,
        (process (initState 2 0)
            (([⟨1, 0⟩, ⟨2, 0⟩, ⟨3, 0⟩] : List Row).take k)).datastore.length ≤ 2) ∧
      (List.Pairwise (fun a b : Row => a.idx < b.idx) [⟨1, 0⟩, ⟨2, 0⟩, ⟨3, 0⟩] →
        ∀ r ∈ tailRows 2 [⟨1, 0⟩, ⟨2, 0⟩, ⟨3, 0⟩],
          ∀ d ∈ ([⟨1, 0⟩, ⟨2, 0⟩, ⟨3, 0⟩] : List Row).take
              (([⟨1, 0⟩, ⟨2, 0⟩, ⟨3, 0⟩] : List Row).length - 2),
            d.idx < r.idx)) :=
  ⟨by decide, claim_C1 2 0 [⟨1, 0⟩, ⟨2, 0⟩, ⟨3, 0⟩] (by decide)⟩

/-- C2: a row whose index is already present in the store takes the UPDATE
path of `_process`: the first row with that index is overwritten in place,
the store length is unchanged, the occurrence count of that index does not
grow (no duplicate append), the row is enqueued for patch delivery, and
`_last_idx` is untouched. -/
theorem claim_C2 (s : DH) (r : Row)
    (h0 : 0 < s.datastore.length) (hm : memIdx s.datastore r.idx = true) :
    (processRow s r).datastore = s.datastore.set (firstMatch s.datastore r.idx) r ∧
    (processRow s r).datastore.length = s.datastore.length ∧
    firstMatch s.datastore r.idx < s.datastore.length ∧
    (∀ i : Fin s.datastore.length, i.1 < firstMatch s.datastore r.idx →
      (s.datastore.get i).idx ≠ r.idx) ∧
    ((processRow s r).datastore.filter (fun q => q.idx == r.idx)).length =
      (s.datastore.filter (fun q => q.idx == r.idx)).length ∧
    (processRow s r).patches = s.patches ++ [r] ∧
    (processRow s r).lastIdx = s.lastIdx := by
  have hbr : processRow s r =
      pushPatches
        { s with
          datastore := s.datastore.set (firstMatch s.datastore r.idx) r
          patches := s.patches ++ [r] } := by
    rw [processRow, if_pos ⟨h0, hm⟩]
  have hexists : ∃ q ∈ s.datastore, (fun q : Row => q.idx == r.idx) q = true := by
    rcases (memIdx_eq_true_iff _ _).mp hm with ⟨q, hq, hqi⟩
    exact ⟨q, hq, by simp [hqi]⟩
  have hj : firstMatch s.datastore r.idx < s.datastore.length :=
    List.findIdx_lt_length_of_exists hexists
  refine ⟨by rw [hbr, pushPatches_datastore], ?_, hj, ?_, ?_, ?_, ?_⟩
  · rw [hbr, pushPatches_datastore, List.length_set]
  · intro i hi hiq
    have h2 := @List.not_of_lt_findIdx Row (fun q : Row => q.idx == r.idx)
      s.datastore i.1 hi
    simp only [List.get_eq_getElem] at hiq
    simp [hiq] at h2
  · rw [hbr, pushPatches_datastore]
    have hpj : ((s.datastore.get ⟨firstMatch s.datastore r.idx, hj⟩).idx == r.idx) = true := by
      have := @List.findIdx_getElem Row (fun q : Row => q.idx == r.idx)
        s.datastore hj
      simpa [List.get_eq_getElem] using this
    have hset : s.datastore.set (firstMatch s.datastore r.idx) r =
        s.datastore.take (firstMatch s.datastore r.idx) ++
          r :: s.datastore.drop (firstMatch s.datastore r.idx + 1) :=
      List.set_eq_take_cons_drop r hj
    have hdecomp : s.datastore =
        s.datastore.take (firstMatch s.datastore r.idx) ++
          s.datastore.get ⟨firstMatch s.datastore r.idx, hj⟩ ::
            s.datastore.drop (firstMatch s.datastore r.idx + 1) := by
      conv_lhs => rw [← List.take_append_drop (firstMatch s.datastore r.idx) s.datastore]
      congr 1
      rw [List.get_eq_getElem]
      exact (List.getElem_cons_drop s.datastore _ hj).symm
    rw [hset]
    conv_rhs => rw [hdecomp]
    rw [List.filter_append, List.filter_append, List.filter_cons, List.filter_cons]
    simp only [hpj, beq_self_eq_true, eq_self_iff_true, if_true, ite_true,
      List.length_append, List.length_cons]
  · rw [hbr, pushPatches_patches]
  · rw [hbr, pushPatches_lastIdx]

/-- Concrete handler state for the C2 witness: store with indices 1, 2, 4. -/
def sC2 : DH := process (initState 3 0) [⟨1, 0⟩, ⟨2, 0⟩, ⟨4, 0⟩]

/-- C2 witness: upserting a row with the already-present index 2 into the
concrete store with indices 1, 2, 4 overwrites in place. -/
theorem claim_C2_witness :
    (0 < sC2.datastore.length ∧ memIdx sC2.datastore (2 : Int) = true) ∧
    ((processRow sC2 ⟨2, 9⟩).datastore =
        sC2.datastore.set (firstMatch sC2.datastore 2) ⟨2, 9⟩ ∧
      (processRow sC2 ⟨2, 9⟩).datastore.length = sC2.datastore.length ∧
      firstMatch sC2.datastore 2 < sC2.datastore.length ∧
      (∀ i : Fin sC2.datastore.length, i.1 < firstMatch sC2.datastore 2 →
        (sC2.datastore.get i).idx ≠ 2) ∧
      ((processRow sC2 ⟨2, 9⟩).datastore.filter (fun q => q.idx == (2 : Int))).length =
        (sC2.datastore.filter (fun q => q.idx == (2 : Int))).length ∧
      (processRow sC2 ⟨2, 9⟩).patches = sC2.patches ++ [⟨2, 9⟩] ∧
      (processRow sC2 ⟨2, 9⟩).lastIdx = sC2.lastIdx) :=
  ⟨⟨by decide, by decide⟩, claim_C2 sC2 ⟨2, 9⟩ (by decide) (by decide)⟩

/-! ### Ascending stores and the add flush -/

theorem ascIdx_iff_pairwise :
    ∀ l : List Row,
      ascIdx l = true ↔ List.Pairwise (fun a b : Row => a.idx < b.idx) l
  | [] => by simp [ascIdx]
  | [a] => by simp [ascIdx]
  | a :: b :: t => by
      rw [show ascIdx (a :: b :: t) = ((decide (a.idx < b.idx)) && ascIdx (b :: t)) from rfl,
        Bool.and_eq_true, decide_eq_true_iff, ascIdx_iff_pairwise (b :: t)]
      constructor
      · rintro ⟨hab, hp⟩
        refine List.Pairwise.cons ?_ hp
        intro c hc
        rcases List.mem_cons.mp hc with rfl | hct
        · exact hab
        · exact lt_trans hab (List.rel_of_pairwise_cons hp hct)
      · intro hp
        exact ⟨List.rel_of_pairwise_cons hp (by simp), (List.pairwise_cons.mp hp).2⟩

theorem le_lastRowIdx_of_pairwise :
    ∀ l : List Row, List.Pairwise (fun a b : Row => a.idx < b.idx) l →
      ∀ r ∈ l, r.idx ≤ lastRowIdx l
  | [] => by intro _ r hr; cases hr
  | [a] => by
      intro _ r hr
      rcases List.mem_singleton.mp hr with rfl
      simp [lastRowIdx]
  | a :: b :: t => by
      intro hp r hr
      have hlast : lastRowIdx (a :: b :: t) = lastRowIdx (b :: t) := by
        simp [lastRowIdx]
      rw [hlast]
      rcases List.mem_cons.mp hr with rfl | hrt
      · have hab : r.idx < b.idx := List.rel_of_pairwise_cons hp (by simp)
        have hb := le_lastRowIdx_of_pairwise (b :: t) (List.pairwise_cons.mp hp).2 b (by simp)
        omega
      · exact le_lastRowIdx_of_pairwise (b :: t) (List.pairwise_cons.mp hp).2 r hrt

theorem lastRowIdx_mem (l : List Row) (h : l ≠ []) : ∃ r ∈ l, r.idx = lastRowIdx l := by
  rcases hx : l.getLast? with - | r
  · exact absurd (List.getLast?_eq_none_iff.mp hx) h
  · exact ⟨r, List.mem_of_getLast?_eq_some hx, by simp [lastRowIdx, hx]⟩

theorem cbPushAdds_of_empty (s : DH) (h : payloadOf s = []) : cbPushAdds s = s := by
  simp only [cbPushAdds, h]
  rfl

theorem cbPushAdds_of_nonempty (s : DH) (h : payloadOf s ≠ []) :
    cbPushAdds s =
      { s with
        lastIdx := lastRowIdx (payloadOf s)
        events := s.events ++
          streamEvents (payloadOf s) (min s.lookback s.datastore.length) s.nfigs } := by
  have hlen : ¬(payloadOf s).length = 0 := by simpa [List.length_eq_zero] using h
  simp only [cbPushAdds]
  rw [if_neg hlen]
  simp [getDataStreamLength]

/-- C3: a non-empty add flush streams exactly the store rows with index
greater than `_last_idx` (in store order) to the figurepage and each figure,
with cap `min(lookback, storeSize)` on every stream call, leaves the store
unchanged, and sets `_last_idx` to the index of the *last* payload row —
which is the greatest payload index (and the payload is index-ascending)
whenever the store itself is in ascending index order. -/
theorem claim_C3 (s : DH) (h : payloadOf s ≠ []) :
    (cbPushAdds s).events =
      s.events ++ List.replicate (1 + s.nfigs)
        (SinkEv.stream (payloadOf s) (min s.lookback s.datastore.length)) ∧
    (cbPushAdds s).lastIdx = lastRowIdx (payloadOf s) ∧
    (cbPushAdds s).datastore = s.datastore ∧
    (ascIdx s.datastore = true →
      ascIdx (payloadOf s) = true ∧
      ∀ r ∈ payloadOf s, r.idx ≤ (cbPushAdds s).lastIdx) := by
  rw [cbPushAdds_of_nonempty s h]
  refine ⟨rfl, rfl, rfl, ?_⟩
  intro hasc
  have hpw : List.Pairwise (fun a b : Row => a.idx < b.idx) s.datastore :=
    (ascIdx_iff_pairwise _).mp hasc
  have hppw : List.Pairwise (fun a b : Row => a.idx < b.idx) (payloadOf s) :=
    List.Pairwise.sublist (List.filter_sublist _) hpw
  exact ⟨(ascIdx_iff_pairwise _).mpr hppw, le_lastRowIdx_of_pairwise _ hppw⟩

/-- Concrete reachable state for the C3 counterexample: two appends with
indices 5 then 2 (the second a re-append of a lower index) and no flush yet. -/
def sC3 : DH := process (initState 2 0) [⟨5, 0⟩, ⟨2, 0⟩]

/-- C3 counterexample: on the store `[idx 5, idx 2]` with `_last_idx = -1`,
the payload is not in ascending index order, and after the flush `_last_idx`
is 2 (the positional last), strictly below the payload index 5 — not the
greatest index included. -/
theorem claim_C3_counterexample :
    payloadOf sC3 = [⟨5, 0⟩, ⟨2, 0⟩] ∧
    ascIdx (payloadOf sC3) = false ∧
    (cbPushAdds sC3).lastIdx = 2 ∧
    (∃ r ∈ payloadOf sC3, (cbPushAdds sC3).lastIdx < r.idx) := by
  decide

/-- Concrete ascending state for the C3 witness: appends with indices 1, 2. -/
def sW3 : DH := process (initState 3 1) [⟨1, 0⟩, ⟨2, 0⟩]

/-- C3 witness: the amended claim evaluated on an ascending two-row store. -/
theorem claim_C3_witness :
    payloadOf sW3 ≠ [] ∧
    ((cbPushAdds sW3).events =
        sW3.events ++ List.replicate (1 + sW3.nfigs)
          (SinkEv.stream (payloadOf sW3) (min sW3.lookback sW3.datastore.length)) ∧
      (cbPushAdds sW3).lastIdx = lastRowIdx (payloadOf sW3) ∧
      (cbPushAdds sW3).datastore = sW3.datastore ∧
      (ascIdx sW3.datastore = true →
        ascIdx (payloadOf sW3) = true ∧
        ∀ r ∈ payloadOf sW3, r.idx ≤ (cbPushAdds sW3).lastIdx)) :=
  ⟨by decide, claim_C3 sW3 (by decide)⟩

theorem payloadOf_cbPushAdds_empty (s : DH) (hasc : ascIdx s.datastore = true) :
    payloadOf (cbPushAdds s) = [] := by
  by_cases hp : payloadOf s = []
  · rw [cbPushAdds_of_empty s hp]
    exact hp
  · rw [cbPushAdds_of_nonempty s hp]
    have hpw : List.Pairwise (fun a b : Row => a.idx < b.idx) s.datastore :=
      (ascIdx_iff_pairwise _).mp hasc
    have hppw : List.Pairwise (fun a b : Row => a.idx < b.idx) (payloadOf s) :=
      List.Pairwise.sublist (List.filter_sublist _) hpw
    rcases lastRowIdx_mem (payloadOf s) hp with ⟨q, hq, hqi⟩
    have hLgt : s.lastIdx < lastRowIdx (payloadOf s) := by
      have hqf := List.of_mem_filter hq
      rw [← hqi]
      exact of_decide_eq_true hqf
    apply List.filter_eq_nil_iff.mpr
    intro r hr
    simp only [decide_eq_true_eq]
    by_cases hrp : s.lastIdx < r.idx
    · have hrmem : r ∈ payloadOf s :=
        List.mem_filter.mpr ⟨hr, decide_eq_true hrp⟩
      have := le_lastRowIdx_of_pairwise _ hppw r hrmem
      omega
    · omega

/-- C8: an add flush with no qualifying rows is a complete no-op (the state,
including the sink-call trace and `_last_idx`, is unchanged — the emptiness
check precedes any sink interaction); and when the store is in ascending
index order, a flush immediately followed by another with no intervening
data leaves the second a no-op as well. -/
theorem claim_C8 (s : DH) :
    (payloadOf s = [] → cbPushAdds s = s) ∧
    (ascIdx s.datastore = true → cbPushAdds (cbPushAdds s) = cbPushAdds s) := by
  refine ⟨cbPushAdds_of_empty s, ?_⟩
  intro hasc
  exact cbPushAdds_of_empty _ (payloadOf_cbPushAdds_empty s hasc)

/-- Concrete reachable state for the C8 counterexample: appends with indices
7 then 3 (a re-append of a lower index), no flush yet. -/
def sC8 : DH := process (initState 2 0) [⟨7, 0⟩, ⟨3, 0⟩]

/-- C8 counterexample: on the out-of-order store `[idx 7, idx 3]` the first
flush sets `_last_idx = 3`, so an immediate second flush finds index 7 again:
its payload is non-empty and it makes further sink calls — the round-trip is
not a no-op (and row 7 is even redelivered). -/
theorem claim_C8_counterexample :
    payloadOf (cbPushAdds sC8) = [⟨7, 0⟩] ∧
    (cbPushAdds (cbPushAdds sC8)).events ≠ (cbPushAdds sC8).events := by
  decide

/-- Concrete ascending state for the C8 witness. -/
def sW8 : DH := process (initState 3 0) [⟨1, 0⟩, ⟨4, 0⟩]

/-- C8 witness: the no-op case on an empty store, and the round-trip case on
an ascending two-row store. -/
theorem claim_C8_witness :
    (payloadOf (initState 2 0) = [] ∧ cbPushAdds (initState 2 0) = initState 2 0) ∧
    (ascIdx sW8.datastore = true ∧ cbPushAdds (cbPushAdds sW8) = cbPushAdds sW8) :=
  ⟨⟨by decide, (claim_C8 (initState 2 0)).1 (by decide)⟩,
   ⟨by decide, (claim_C8 sW8).2 (by decide)⟩⟩

theorem cbPushAddsUpTo_of_nonempty (s : DH) (k : Nat) (h : payloadOf s ≠ []) :
    cbPushAddsUpTo s k =
      { s with
        lastIdx := lastRowIdx (payloadOf s)
        events := s.events ++
          (streamEvents (payloadOf s) (min s.lookback s.datastore.length) s.nfigs).take k } := by
  have hlen : ¬(payloadOf s).length = 0 := by simpa [List.length_eq_zero] using h
  simp only [cbPushAddsUpTo]
  rw [if_neg hlen]
  simp [getDataStreamLength]

/-- C9: in a non-empty add flush `_last_idx` is set to the last payload
row's index before any sink call completes — even when the flush is
interrupted after `k` sink calls (`k = 0` included); when the store is in
ascending index order this value bounds every payload index, so no payload
row can reappear in any later flush whose `_last_idx` is at least this value:
the rows of an interrupted payload are never redelivered. -/
theorem claim_C9 (s : DH) (k : Nat) (h : payloadOf s ≠ []) :
    (cbPushAddsUpTo s k).lastIdx = lastRowIdx (payloadOf s) ∧
    (ascIdx s.datastore = true →
      (∀ r ∈ payloadOf s, r.idx ≤ (cbPushAddsUpTo s k).lastIdx) ∧
      (∀ t : DH, (cbPushAddsUpTo s k).lastIdx ≤ t.lastIdx →
        ∀ r ∈ payloadOf s, r ∉ payloadOf t)) := by
  rw [cbPushAddsUpTo_of_nonempty s k h]
  refine ⟨rfl, ?_⟩
  intro hasc
  have hppw : List.Pairwise (fun a b : Row => a.idx < b.idx) (payloadOf s) :=
    List.Pairwise.sublist (List.filter_sublist _) ((ascIdx_iff_pairwise _).mp hasc)
  refine ⟨le_lastRowIdx_of_pairwise _ hppw, ?_⟩
  intro t hle r hr hrt
  have h1 : r.idx ≤ lastRowIdx (payloadOf s) := le_lastRowIdx_of_pairwise _ hppw r hr
  have hle2 : lastRowIdx (payloadOf s) ≤ t.lastIdx := hle
  simp only [payloadOf, List.mem_filter, decide_eq_true_eq] at hrt
  omega

/-- Concrete reachable state for the C9 counterexample: appends with indices
9 then 4, no flush yet. -/
def sC9 : DH := process (initState 2 0) [⟨9, 0⟩, ⟨4, 0⟩]

/-- C9 counterexample: on the out-of-order store `[idx 9, idx 4]` the flush
advances `_last_idx` to 4, the *positional last* payload index, leaving the
payload row with index 9 strictly above it — `_last_idx` is not advanced to
the payload's greatest index. -/
theorem claim_C9_counterexample :
    (cbPushAdds sC9).lastIdx = 4 ∧
    (∃ r ∈ payloadOf sC9, (cbPushAdds sC9).lastIdx < r.idx) := by
  decide

/-- Concrete ascending state for the C9 witness. -/
def sW9 : DH := process (initState 3 0) [⟨2, 0⟩, ⟨6, 0⟩]

/-- C9 witness: the amended claim at a concrete ascending store and an
interruption before any sink call (`k = 0`). -/
theorem claim_C9_witness :
    payloadOf sW9 ≠ [] ∧
    ((cbPushAddsUpTo sW9 0).lastIdx = lastRowIdx (payloadOf sW9) ∧
      (ascIdx sW9.datastore = true →
        (∀ r ∈ payloadOf sW9, r.idx ≤ (cbPushAddsUpTo sW9 0).lastIdx) ∧
        (∀ t : DH, (cbPushAddsUpTo sW9 0).lastIdx ≤ t.lastIdx →
          ∀ r ∈ payloadOf sW9, r ∉ payloadOf t))) :=
  ⟨by decide, claim_C9 sW9 0 (by decide)⟩

/-! ### Routing of incoming rows -/

theorem pushAdds_cbAdd (s : DH) : (pushAdds s).cbAdd = some s.next := rfl

theorem pushAdds_cbPatch (s : DH) : (pushAdds s).cbPatch = s.cbPatch := rfl

theorem pushPatches_cbPatch (s : DH) : (pushPatches s).cbPatch = some s.next := rfl

theorem pushPatches_cbAdd (s : DH) : (pushPatches s).cbAdd = s.cbAdd := rfl

theorem tailRows_append_getLast (n : Nat) (hn : 0 < n) (l : List Row) (a : Row) :
    (tailRows n (l ++ [a])).getLast? = some a := by
  unfold tailRows
  have hk : (l ++ [a]).length - n ≤ l.length := by simp; omega
  rw [List.drop_append_of_le_length hk]
  simp

/-- C4: for a row whose index is strictly below `_last_idx`, `_process`
routes by store membership alone: when the index is still present the row is
handled as a correction (enqueued on `_patches`, patch flush requested,
store size unchanged); when the index has been evicted the row is instead
re-appended through the append branch (nothing enqueued, add flush
requested, the row at the tail of the trimmed store). -/
theorem claim_C4 (s : DH) (r : Row) (hlt : r.idx < s.lastIdx) :
    (0 < s.datastore.length ∧ memIdx s.datastore r.idx = true →
      (processRow s r).patches = s.patches ++ [r] ∧
      (processRow s r).datastore.length = s.datastore.length ∧
      (processRow s r).cbPatch = some s.next) ∧
    (¬(0 < s.datastore.length ∧ memIdx s.datastore r.idx = true) →
      (processRow s r).patches = s.patches ∧
      (processRow s r).cbAdd = some s.next ∧
      (0 < s.lookback → (processRow s r).datastore.getLast? = some r)) := by
  constructor
  · intro hmem
    have hc := claim_C2 s r hmem.1 hmem.2
    have hbr : processRow s r =
        pushPatches
          { s with
            datastore := s.datastore.set (firstMatch s.datastore r.idx) r
            patches := s.patches ++ [r] } := by
      rw [processRow, if_pos hmem]
    exact ⟨by rw [hbr, pushPatches_patches], hc.2.1, by rw [hbr, pushPatches_cbPatch]⟩
  · intro hfresh
    rw [processRow_fresh s r hfresh]
    refine ⟨pushAdds_patches _, pushAdds_cbAdd _, ?_⟩
    intro hlb
    rw [pushAdds_datastore]
    exact tailRows_append_getLast _ (by simp; omega) s.datastore r

/-- Concrete reachable state for the C4 counterexample: `lookback = 1`,
row with index 5 appended and flushed, so `_last_idx = 5` and the store
holds only index 5. -/
def sC4 : DH := cbPushAdds (process (initState 1 0) [⟨5, 0⟩])

/-- C4 counterexample: the incoming row with index 2 is strictly below
`_last_idx = 5` and its index has been evicted; `_process` re-appends it
(the store becomes `[idx 2]`) and enqueues nothing for patch delivery —
it is not routed as a correction. -/
theorem claim_C4_counterexample :
    sC4.datastore = [⟨5, 0⟩] ∧ sC4.lastIdx = 5 ∧
    (2 : Int) < sC4.lastIdx ∧
    memIdx sC4.datastore 2 = false ∧
    (processRow sC4 ⟨2, 7⟩).patches = [] ∧
    (processRow sC4 ⟨2, 7⟩).patches ≠ sC4.patches ++ [⟨2, 7⟩] ∧
    (processRow sC4 ⟨2, 7⟩).cbPatch = none ∧
    (processRow sC4 ⟨2, 7⟩).datastore = [⟨2, 7⟩] := by
  decide

/-- Concrete reachable state for the C4 witness: store with indices 1, 5,
already delivered up to `_last_idx = 5`. -/
def sW4 : DH := cbPushAdds (process (initState 3 0) [⟨1, 0⟩, ⟨5, 0⟩])

/-- C4 witness: the amended claim evaluated on a row with index 1, below
`_last_idx = 5` and still present in the store. -/
theorem claim_C4_witness :
    (⟨1, 9⟩ : Row).idx < sW4.lastIdx ∧
    ((0 < sW4.datastore.length ∧ memIdx sW4.datastore (⟨1, 9⟩ : Row).idx = true →
        (processRow sW4 ⟨1, 9⟩).patches = sW4.patches ++ [⟨1, 9⟩] ∧
        (processRow sW4 ⟨1, 9⟩).datastore.length = sW4.datastore.length ∧
        (processRow sW4 ⟨1, 9⟩).cbPatch = some sW4.next) ∧
      (¬(0 < sW4.datastore.length ∧ memIdx sW4.datastore (⟨1, 9⟩ : Row).idx = true) →
        (processRow sW4 ⟨1, 9⟩).patches = sW4.patches ∧
        (processRow sW4 ⟨1, 9⟩).cbAdd = some sW4.next ∧
        (0 < sW4.lookback → (processRow sW4 ⟨1, 9⟩).datastore.getLast? = some ⟨1, 9⟩))) :=
  ⟨by decide, claim_C4 sW4 ⟨1, 9⟩ (by decide)⟩

/-- C5: when new data was signalled, one worker wake-up pulls the rows newer
than the *single* tracked position `_last_idx` and hands them, in the order
returned, to `_process`; per row, the append branch requests an add flush
but advances no position (`_last_idx` is unchanged), and the correction
branch enqueues the row on `_patches` and requests a patch flush. -/
theorem claim_C5 (fetch : Int → List Row) (s : DH) (hnew : s.newData = true) :
    tThreadStep fetch s = process { s with newData := false } (fetch s.lastIdx) ∧
    (∀ t : DH, ∀ r : Row,
      ¬(0 < t.datastore.length ∧ memIdx t.datastore r.idx = true) →
        (processRow t r).lastIdx = t.lastIdx ∧
        (processRow t r).cbAdd = some t.next ∧
        (processRow t r).patches = t.patches) ∧
    (∀ t : DH, ∀ r : Row,
      0 < t.datastore.length ∧ memIdx t.datastore r.idx = true →
        (processRow t r).patches = t.patches ++ [r] ∧
        (processRow t r).cbPatch = some t.next ∧
        (processRow t r).lastIdx = t.lastIdx ∧
        (processRow t r).datastore.length = t.datastore.length) := by
  refine ⟨by rw [tThreadStep, if_pos hnew], ?_, ?_⟩
  · intro t r hfresh
    rw [processRow_fresh t r hfresh]
    exact ⟨pushAdds_lastIdx _, pushAdds_cbAdd _, pushAdds_patches _⟩
  · intro t r hmem
    have hc := claim_C2 t r hmem.1 hmem.2
    have hbr : processRow t r =
        pushPatches
          { t with
            datastore := t.datastore.set (firstMatch t.datastore r.idx) r
            patches := t.patches ++ [r] } := by
      rw [processRow, if_pos hmem]
    exact ⟨hc.2.2.2.2.2.1, by rw [hbr, pushPatches_cbPatch],
      by rw [hbr, pushPatches_lastIdx], hc.2.1⟩

/-- C5 counterexample: processing the fresh row with index 5 takes the
append branch and requests an add flush, yet no position variable is
advanced to 5 — `_last_idx` (the only position the worker consults when
fetching) remains `-1` until a flush actually delivers. -/
theorem claim_C5_counterexample :
    (processRow (initState 2 0) ⟨5, 1⟩).datastore = [⟨5, 1⟩] ∧
    (processRow (initState 2 0) ⟨5, 1⟩).cbAdd = some 0 ∧
    (processRow (initState 2 0) ⟨5, 1⟩).lastIdx = -1 ∧
    (processRow (initState 2 0) ⟨5, 1⟩).lastIdx ≠ 5 := by
  decide

/-- C5 witness: one worker wake-up on a freshly signalled handler whose data
source returns the single row with index 5. -/
theorem claim_C5_witness :
    (update (initState 2 0)).newData = true ∧
    (tThreadStep (fun _ => [⟨5, 1⟩]) (update (initState 2 0)) =
        process { update (initState 2 0) with newData := false }
          [⟨5, 1⟩] ∧
      (∀ t : DH, ∀ r : Row,
        ¬(0 < t.datastore.length ∧ memIdx t.datastore r.idx = true) →
          (processRow t r).lastIdx = t.lastIdx ∧
          (processRow t r).cbAdd = some t.next ∧
          (processRow t r).patches = t.patches) ∧
      (∀ t : DH, ∀ r : Row,
        0 < t.datastore.length ∧ memIdx t.datastore r.idx = true →
          (processRow t r).patches = t.patches ++ [r] ∧
          (processRow t r).cbPatch = some t.next ∧
          (processRow t r).lastIdx = t.lastIdx ∧
          (processRow t r).datastore.length = t.datastore.length)) :=
  ⟨rfl, claim_C5 (fun _ => [⟨5, 1⟩]) (update (initState 2 0)) rfl⟩

/-! ### The cancel-and-reschedule scheduler -/

theorem pushAdds_pending (s : DH) (hwf : wf s) :
    (pushAdds s).pending =
      s.pending.filter (fun p => p.2 == Kind.patch) ++ [(s.next, Kind.add)] := by
  obtain ⟨-, -, -, hadd, -⟩ := hwf
  rcases hcb : s.cbAdd with - | h
  · have hfe : s.pending.filter (fun p => p.2 == Kind.patch) = s.pending := by
      apply List.filter_eq_self.mpr
      intro p hp
      have h4 := hadd p hp
      rw [hcb] at h4
      cases hk : p.2
      case add => exact absurd (h4.mp hk) (by simp)
      case patch => rfl
    rw [hfe]
    simp [pushAdds, removeNextTick, hcb]
  · by_cases hmem : s.pending.any (fun p => p.1 == h) = true
    · have hfc : s.pending.filter (fun p => p.1 != h) =
          s.pending.filter (fun p => p.2 == Kind.patch) := by
        apply List.filter_congr
        intro p hp
        have h4 := hadd p hp
        rw [hcb] at h4
        by_cases hph : p.1 = h
        · have hpa : p.2 = Kind.add := h4.mpr (by rw [hph])
          rw [hpa, hph]
          simp
        · have hk : p.2 ≠ Kind.add := fun hh => hph (Option.some.inj (h4.mp hh)).symm
          have hpp : p.2 = Kind.patch := by
            cases hkk : p.2
            · exact absurd hkk hk
            · rfl
          rw [hpp]
          simp [hph]
      simp [pushAdds, removeNextTick, hcb, hmem, hfc]
    · have hfe : s.pending.filter (fun p => p.2 == Kind.patch) = s.pending := by
        apply List.filter_eq_self.mpr
        intro p hp
        have h4 := hadd p hp
        rw [hcb] at h4
        cases hk : p.2
        case add =>
          have hph : h = p.1 := Option.some.inj (h4.mp hk)
          exact absurd (List.any_eq_true.mpr ⟨p, hp, by simp [hph]⟩) hmem
        case patch => rfl
      rw [hfe]
      simp [pushAdds, removeNextTick, hcb, hmem]

theorem pushPatches_pending (s : DH) (hwf : wf s) :
    (pushPatches s).pending =
      s.pending.filter (fun p => p.2 == Kind.add) ++ [(s.next, Kind.patch)] := by
  obtain ⟨-, -, -, hadd, hpatch⟩ := hwf
  rcases hcb : s.cbPatch with - | h
  · have hfe : s.pending.filter (fun p => p.2 == Kind.add) = s.pending := by
      apply List.filter_eq_self.mpr
      intro p hp
      have h5 := hpatch p hp
      rw [hcb] at h5
      cases hk : p.2
      case add => rfl
      case patch => exact absurd (h5.mp hk) (by simp)
    rw [hfe]
    simp [pushPatches, removeNextTick, hcb]
  · by_cases hmem : s.pending.any (fun p => p.1 == h) = true
    · have hfc : s.pending.filter (fun p => p.1 != h) =
          s.pending.filter (fun p => p.2 == Kind.add) := by
        apply List.filter_congr
        intro p hp
        have h5 := hpatch p hp
        rw [hcb] at h5
        by_cases hph : p.1 = h
        · have hpa : p.2 = Kind.patch := h5.mpr (by rw [hph])
          rw [hpa, hph]
          simp
        · have hk : p.2 ≠ Kind.patch := fun hh => hph (Option.some.inj (h5.mp hh)).symm
          have hpp : p.2 = Kind.add := by
            cases hkk : p.2
            · rfl
            · exact absurd hkk hk
          rw [hpp]
          simp [hph]
      simp [pushPatches, removeNextTick, hcb, hmem, hfc]
    · have hfe : s.pending.filter (fun p => p.2 == Kind.add) = s.pending := by
        apply List.filter_eq_self.mpr
        intro p hp
        have h5 := hpatch p hp
        rw [hcb] at h5
        cases hk : p.2
        case add => rfl
        case patch =>
          have hph : h = p.1 := Option.some.inj (h5.mp hk)
          exact absurd (List.any_eq_true.mpr ⟨p, hp, by simp [hph]⟩) hmem
      rw [hfe]
      simp [pushPatches, removeNextTick, hcb, hmem]

theorem countKind_pushAdds_add (s : DH) (hwf : wf s) :
    countKind (pushAdds s) Kind.add = 1 := by
  rw [countKind, pushAdds_pending s hwf, List.filter_append, List.filter_filter]
  have h1 : s.pending.filter
      (fun p => (p.2 == Kind.add) && (p.2 == Kind.patch)) = [] := by
    apply List.filter_eq_nil_iff.mpr
    intro p _
    cases hk : p.2 <;> simp [hk]
  rw [h1]
  rfl

theorem countKind_pushAdds_patch (s : DH) (hwf : wf s) :
    countKind (pushAdds s) Kind.patch = countKind s Kind.patch := by
  rw [countKind, pushAdds_pending s hwf, List.filter_append, List.filter_filter]
  have h1 : s.pending.filter
      (fun p => (p.2 == Kind.patch) && (p.2 == Kind.patch)) =
      s.pending.filter (fun p => p.2 == Kind.patch) := by
    apply List.filter_congr
    intro p _
    exact Bool.and_self _
  rw [h1]
  simp [countKind]

theorem countKind_pushPatches_patch (s : DH) (hwf : wf s) :
    countKind (pushPatches s) Kind.patch = 1 := by
  rw [countKind, pushPatches_pending s hwf, List.filter_append, List.filter_filter]
  have h1 : s.pending.filter
      (fun p => (p.2 == Kind.patch) && (p.2 == Kind.add)) = [] := by
    apply List.filter_eq_nil_iff.mpr
    intro p _
    cases hk : p.2 <;> simp [hk]
  rw [h1]
  rfl

theorem optLt_mono {o : Option Nat} {n m : Nat} (h : optLt o n) (hnm : n ≤ m) :
    optLt o m := by
  cases o
  · trivial
  · exact Nat.lt_of_lt_of_le h hnm

theorem wf_pushAdds (s : DH) (hwf : wf s) : wf (pushAdds s) := by
  obtain ⟨hlt, ha, hp, hadd, hpatch⟩ := hwf
  have hpend := pushAdds_pending s ⟨hlt, ha, hp, hadd, hpatch⟩
  have hnext : (pushAdds s).next = s.next + 1 := rfl
  have hcbP : (pushAdds s).cbPatch = s.cbPatch := rfl
  refine ⟨?_, ?_, ?_, ?_, ?_⟩
  · intro p hps
    rw [hpend] at hps
    rw [hnext]
    rcases List.mem_append.mp hps with hp1 | hp2
    · have := hlt p (List.mem_of_mem_filter hp1)
      omega
    · rw [List.mem_singleton] at hp2
      subst hp2
      omega
  · exact Nat.lt_succ_self s.next
  · rw [hcbP, hnext]
    exact optLt_mono hp (Nat.le_succ _)
  · intro p hps
    rw [hpend] at hps
    rcases List.mem_append.mp hps with hp1 | hp2
    · have hpp : p.2 = Kind.patch := by
        have := List.of_mem_filter hp1
        simpa using this
      have hlt1 : p.1 < s.next := hlt p (List.mem_of_mem_filter hp1)
      constructor
      · intro hk
        rw [hpp] at hk
        cases hk
      · intro hsome
        have : s.next = p.1 := Option.some.inj hsome
        omega
    · rw [List.mem_singleton] at hp2
      subst hp2
      simp
      rfl
  · intro p hps
    rw [hpend] at hps
    rw [hcbP]
    rcases List.mem_append.mp hps with hp1 | hp2
    · exact hpatch p (List.mem_of_mem_filter hp1)
    · rw [List.mem_singleton] at hp2
      subst hp2
      constructor
      · intro hk
        cases hk
      · intro hsome
        rcases hcp : s.cbPatch with - | c
        · rw [hcp] at hsome
          cases hsome
        · rw [hcp] at hsome
          have : c = s.next := Option.some.inj hsome
          rw [hcp] at hp
          have : c < s.next := hp
          omega


theorem wf_pushPatches (s : DH) (hwf : wf s) : wf (pushPatches s) := by
  obtain ⟨hlt, ha, hp, hadd, hpatch⟩ := hwf
  have hpend := pushPatches_pending s ⟨hlt, ha, hp, hadd, hpatch⟩
  have hnext : (pushPatches s).next = s.next + 1 := rfl
  have hcbA : (pushPatches s).cbAdd = s.cbAdd := rfl
  refine ⟨?_, ?_, ?_, ?_, ?_⟩
  · intro p hps
    rw [hpend] at hps
    rw [hnext]
    rcases List.mem_append.mp hps with hp1 | hp2
    · have := hlt p (List.mem_of_mem_filter hp1)
      omega
    · rw [List.mem_singleton] at hp2
      subst hp2
      omega
  · rw [hcbA, hnext]
    exact optLt_mono ha (Nat.le_succ _)
  · exact Nat.lt_succ_self s.next
  · intro p hps
    rw [hpend] at hps
    rw [hcbA]
    rcases List.mem_append.mp hps with hp1 | hp2
    · exact hadd p (List.mem_of_mem_filter hp1)
    · rw [List.mem_singleton] at hp2
      subst hp2
      constructor
      · intro hk
        cases hk
      · intro hsome
        rcases hca : s.cbAdd with - | c
        · rw [hca] at hsome
          cases hsome
        · rw [hca] at hsome
          have : c = s.next := Option.some.inj hsome
          rw [hca] at ha
          have : c < s.next := ha
          omega
  · intro p hps
    rw [hpend] at hps
    rcases List.mem_append.mp hps with hp1 | hp2
    · have hpp : p.2 = Kind.add := by
        have := List.of_mem_filter hp1
        simpa using this
      have hlt1 : p.1 < s.next := hlt p (List.mem_of_mem_filter hp1)
      constructor
      · intro hk
        rw [hpp] at hk
        cases hk
      · intro hsome
        have : s.next = p.1 := Option.some.inj hsome
        omega
    · rw [List.mem_singleton] at hp2
      subst hp2
      simp
      rfl

instance instDecidableWf (s : DH) : Decidable (wf s) := by
  unfold wf
  infer_instance

/-- `n` repeated flush requests of one kind within a single tick. -/
def iterPush (f : DH → DH) : Nat → DH → DH
  | 0, s => s
  | n + 1, s => iterPush f n (f s)

theorem iterPush_pushAdds_inv :
    ∀ (n : Nat) (s : DH), wf s →
      wf (iterPush pushAdds n s) ∧
      (1 ≤ n → countKind (iterPush pushAdds n s) Kind.add = 1)
  | 0, s, hwf => ⟨hwf, fun h => absurd h (by omega)⟩
  | n + 1, s, hwf => by
      have ih := iterPush_pushAdds_inv n (pushAdds s) (wf_pushAdds s hwf)
      refine ⟨ih.1, fun _ => ?_⟩
      cases n with
      | zero => exact countKind_pushAdds_add s hwf
      | succ m => exact ih.2 (by omega)

theorem iterPush_pushPatches_inv :
    ∀ (n : Nat) (s : DH), wf s →
      wf (iterPush pushPatches n s) ∧
      (1 ≤ n → countKind (iterPush pushPatches n s) Kind.patch = 1)
  | 0, s, hwf => ⟨hwf, fun h => absurd h (by omega)⟩
  | n + 1, s, hwf => by
      have ih := iterPush_pushPatches_inv n (pushPatches s) (wf_pushPatches s hwf)
      refine ⟨ih.1, fun _ => ?_⟩
      cases n with
      | zero => exact countKind_pushPatches_patch s hwf
      | succ m => exact ih.2 (by omega)

theorem count_map_snd (l : List (Nat × Kind)) (k : Kind) :
    (l.map Prod.snd).count k = (l.filter (fun p => p.2 == k)).length := by
  induction l with
  | nil => rfl
  | cons a t ih =>
      by_cases h : a.2 = k
      · simp [List.count_cons, List.filter_cons, h, ih]
      · simp [List.count_cons, List.filter_cons, h, ih]

theorem runTick_count (t : DH) (k : Kind) :
    (runTick t).2.count k = countKind t k :=
  count_map_snd t.pending k

theorem pushAdds_swallow (t : DH)
    (herr : removeNextTick t.pending t.cbAdd = Except.error ()) :
    pushAdds t =
      { t with
        pending := t.pending ++ [(t.next, Kind.add)]
        cbAdd := some t.next
        next := t.next + 1 } := by
  simp [pushAdds, herr]

/-- C7: from any well-formed handler state, a burst of `n ≥ 1` flush
requests of one kind within one tick leaves exactly one pending callback of
that kind (each request cancels its predecessor), so the consumer loop's
next tick executes that kind's flush callback exactly once; and a
cancellation that fails (no callback remembered, or the remembered one has
already run) is silently swallowed — the request still schedules its
callback and never raises. -/
theorem claim_C7 (s : DH) (n : Nat) (hwf : wf s) (hn : 1 ≤ n) :
    countKind (iterPush pushAdds n s) Kind.add = 1 ∧
    (runTick (iterPush pushAdds n s)).2.count Kind.add = 1 ∧
    wf (iterPush pushAdds n s) ∧
    countKind (iterPush pushPatches n s) Kind.patch = 1 ∧
    (runTick (iterPush pushPatches n s)).2.count Kind.patch = 1 ∧
    wf (iterPush pushPatches n s) ∧
    (∀ t : DH, removeNextTick t.pending t.cbAdd = Except.error () →
      pushAdds t =
        { t with
          pending := t.pending ++ [(t.next, Kind.add)]
          cbAdd := some t.next
          next := t.next + 1 }) := by
  have ha := iterPush_pushAdds_inv n s hwf
  have hp := iterPush_pushPatches_inv n s hwf
  refine ⟨ha.2 hn, ?_, ha.1, hp.2 hn, ?_, hp.1, pushAdds_swallow⟩
  · rw [runTick_count]
    exact ha.2 hn
  · rw [runTick_count]
    exact hp.2 hn

/-- C7 witness: a burst of two add requests (and two patch requests) on a
fresh handler; the first request's cancellation fails (nothing was ever
scheduled) and is swallowed. -/
theorem claim_C7_witness :
    (wf (initState 0 0) ∧ 1 ≤ 2) ∧
    (countKind (iterPush pushAdds 2 (initState 0 0)) Kind.add = 1 ∧
      (runTick (iterPush pushAdds 2 (initState 0 0))).2.count Kind.add = 1 ∧
      wf (iterPush pushAdds 2 (initState 0 0)) ∧
      countKind (iterPush pushPatches 2 (initState 0 0)) Kind.patch = 1 ∧
      (runTick (iterPush pushPatches 2 (initState 0 0))).2.count Kind.patch = 1 ∧
      wf (iterPush pushPatches 2 (initState 0 0)) ∧
      (∀ t : DH, removeNextTick t.pending t.cbAdd = Except.error () →
        pushAdds t =
          { t with
            pending := t.pending ++ [(t.next, Kind.add)]
            cbAdd := some t.next
            next := t.next + 1 })) :=
  ⟨⟨by decide, by decide⟩, claim_C7 (initState 0 0) 2 (by decide) (by decide)⟩

/-! ### Full resync -/

/-- C6: `set(df)` swaps the entire store contents, resets `_last_idx` to
`-1` (the "none" value) and makes exactly one add-flush request — but it
performs no sink call at all: in particular it does *not* re-derive the
sink's column schema from the new content (only the initial `_fill` does,
via `set_cds_columns_from_df`). -/
theorem claim_C6 (s : DH) (df : List Row) (hwf : wf s) :
    (set s df).datastore = df ∧
    (set s df).lastIdx = -1 ∧
    (set s df).events = s.events ∧
    (set s df).patches = s.patches ∧
    countKind (set s df) Kind.add = 1 ∧
    (set s df).cbAdd = some s.next ∧
    (fill s df).events = s.events ++ [SinkEv.setColumns df] := by
  refine ⟨rfl, rfl, rfl, rfl, ?_, rfl, ?_⟩
  · exact countKind_pushAdds_add { s with datastore := df, lastIdx := -1 } hwf
  · simp only [fill]
    split <;> rfl

/-- C6 counterexample: on a fresh handler, `set` with a two-row frame makes
no sink call whatsoever — the claimed schema re-derivation/notification does
not happen (contrast with `_fill`, which emits it). -/
theorem claim_C6_counterexample :
    (set (initState 1 0) [⟨1, 0⟩, ⟨2, 0⟩]).events = [] ∧
    (∀ e ∈ (set (initState 1 0) [⟨1, 0⟩, ⟨2, 0⟩]).events,
      e ≠ SinkEv.setColumns [⟨1, 0⟩, ⟨2, 0⟩]) ∧
    (fill (initState 1 0) [⟨1, 0⟩, ⟨2, 0⟩]).events =
      [SinkEv.setColumns [⟨1, 0⟩, ⟨2, 0⟩]] := by
  decide

/-- C6 witness: the amended claim evaluated on a fresh handler and a
one-row frame. -/
theorem claim_C6_witness :
    wf (initState 1 0) ∧
    ((set (initState 1 0) [⟨3, 0⟩]).datastore = [⟨3, 0⟩] ∧
      (set (initState 1 0) [⟨3, 0⟩]).lastIdx = -1 ∧
      (set (initState 1 0) [⟨3, 0⟩]).events = (initState 1 0).events ∧
      (set (initState 1 0) [⟨3, 0⟩]).patches = (initState 1 0).patches ∧
      countKind (set (initState 1 0) [⟨3, 0⟩]) Kind.add = 1 ∧
      (set (initState 1 0) [⟨3, 0⟩]).cbAdd = some (initState 1 0).next ∧
      (fill (initState 1 0) [⟨3, 0⟩]).events =
        (initState 1 0).events ++ [SinkEv.setColumns [⟨3, 0⟩]]) :=
  ⟨by decide, claim_C6 (initState 1 0) [⟨3, 0⟩] (by decide)⟩

/-- C10: `set(df)` installs `df` in the store exactly as given, without
trimming (so the store may exceed `lookback` immediately after `set`), and
`lookback` itself is unchanged; the size bound is re-established as soon as
a subsequent row runs through the append branch of `_process`, whose trim
step caps the store at `lookback` rows. -/
theorem claim_C10 (s : DH) (df : List Row) :
    (set s df).datastore = df ∧
    (set s df).lookback = s.lookback ∧
    (∀ r : Row, ¬(0 < df.length ∧ memIdx df r.idx = true) →
      (processRow (set s df) r).datastore.length ≤ s.lookback) := by
  refine ⟨rfl, rfl, ?_⟩
  intro r hfresh
  rw [processRow_fresh (set s df) r hfresh, pushAdds_datastore, tailRows_length]
  have h1 : (set s df).lookback = s.lookback := rfl
  simp
  omega

/-- C10 witness: `set` of three rows on a handler with `lookback = 1` leaves
a store of size 3 > 1; processing the fresh row with index 9 re-trims to at
most 1 row. -/
theorem claim_C10_witness :
    ((set (initState 1 0) [⟨1, 0⟩, ⟨2, 0⟩, ⟨3, 0⟩]).datastore.length = 3 ∧
      1 < (set (initState 1 0) [⟨1, 0⟩, ⟨2, 0⟩, ⟨3, 0⟩]).datastore.length) ∧
    ¬(0 < ([⟨1, 0⟩, ⟨2, 0⟩, ⟨3, 0⟩] : List Row).length ∧
        memIdx [⟨1, 0⟩, ⟨2, 0⟩, ⟨3, 0⟩] (⟨9, 0⟩ : Row).idx = true) ∧
    (processRow (set (initState 1 0) [⟨1, 0⟩, ⟨2, 0⟩, ⟨3, 0⟩]) ⟨9, 0⟩).datastore.length ≤ 1 :=
  ⟨⟨by decide, by decide⟩, by decide,
    (claim_C10 (initState 1 0) [⟨1, 0⟩, ⟨2, 0⟩, ⟨3, 0⟩]).2.2 ⟨9, 0⟩ (by decide)⟩

end BtPlotting
